import Mathlib

/-!
Verification of the core algorithms of the Steam review scraper in
`tes.py`: the windowed paginated review fetcher `fetch_reviews`, the
identifier extractor `get_appid_from_url`, the monthly sampler
`monthly_sample` and the monthly aggregator `monthly_summary`.

Modelling conventions:
* A raw upstream review entry (`RawReview`) carries exactly the JSON
  fields the code reads.  A missing `timestamp_created` is `none`, and
  `int(rv.get("timestamp_created", 0))` becomes `tsOf` (default `0`).
* The upstream feed is a function from request index to the page (list
  of raw entries) the service returns for that request; the opaque
  cursor chain is abstracted into the request index.  The `while True`
  loop of `fetch_reviews` is modelled with explicit fuel: `none` means
  the fuel ran out before the loop stopped, `some ys` means the loop
  stopped by itself having yielded exactly `ys` (in order).
* `start_ts` / `end_ts` are taken as already-converted UTC epoch
  seconds, as computed once at the top of `fetch_reviews`.
* The month column `df["datetime_created_utc"].dt.to_period("M")` is
  the calendar year-month of the UTC instant of the epoch timestamp;
  it is modelled by `monthKey`, the linearised `year * 12 + (month-1)`
  key, whose order agrees with the `"YYYY-MM"` string order pandas
  sorts by.
-/

namespace SteamReviews

/-- One raw review entry as delivered by the upstream feed: the JSON
fields `fetch_reviews` reads.  `timestamp_created` may be absent
(`rv.get("timestamp_created", 0)`); the helpfulness vote count
`votes_up` is an integer attribute of every entry per the feed
contract (spec section 6). -/
structure RawReview where
  timestamp_created : Option Int
  recommendationid : Option String
  author_steamid : Option String
  language : Option String
  review : Option String
  voted_up : Option Bool
  votes_up : Int
  votes_funny : Option Int
  comment_count : Option Int
  steam_purchase : Option Bool
  received_for_free : Option Bool
  playtime_at_review : Option Int
deriving DecidableEq, Repr

/-- One record yielded by `fetch_reviews`: the dict built in the loop
body.  `timestamp_created` is the defaulted integer timestamp `ts`;
the derived `datetime_created_utc` column is recovered from it via
`monthKey` where needed. -/
structure Review where
  app_id : Int
  recommendationid : Option String
  author_steamid : Option String
  language : Option String
  review_text : Option String
  timestamp_created : Int
  voted_up : Bool
  votes_up : Int
  votes_funny : Option Int
  comment_count : Option Int
  steam_purchase : Option Bool
  received_for_free : Option Bool
  playtime_at_review : Option Int
deriving DecidableEq, Repr

/-- The timestamp the code works with: `int(rv.get("timestamp_created", 0))`. -/
def tsOf (rv : RawReview) : Int :=
  rv.timestamp_created.getD 0

/-- The window test `start_ts <= ts < end_ts` of the loop body. -/
def inWindow (start_ts end_ts : Int) (rv : RawReview) : Bool :=
  decide (start_ts ≤ tsOf rv ∧ tsOf rv < end_ts)

/-- The dict yielded for one in-window raw entry. -/
def mkReview (app_id : Int) (rv : RawReview) : Review :=
  { app_id := app_id
    recommendationid := rv.recommendationid
    author_steamid := rv.author_steamid
    language := rv.language
    review_text := rv.review
    timestamp_created := tsOf rv
    voted_up := rv.voted_up.getD false
    votes_up := rv.votes_up
    votes_funny := rv.votes_funny
    comment_count := rv.comment_count
    steam_purchase := rv.steam_purchase
    received_for_free := rv.received_for_free
    playtime_at_review := rv.playtime_at_review }

/-- The records yielded while scanning one page, in page order. -/
def pageYields (app_id start_ts end_ts : Int) (page : List RawReview) : List Review :=
  (page.filter (inWindow start_ts end_ts)).map (mkReview app_id)

/-- The value `int(reviews[-1].get("timestamp_created", 0))` used by the
termination check (`0` on an empty page, where the code never reads it). -/
def oldestTs : List RawReview → Int
  | [] => 0
  | [rv] => tsOf rv
  | _ :: rv :: rest => oldestTs (rv :: rest)

/-- The `while True` pagination loop of `fetch_reviews`, with fuel.
`pages k` is the page the upstream service returns for the `k`-th
request of the session; the loop recurses on the index-shifted feed. -/
def fetchLoop (app_id start_ts end_ts : Int) :
    (Nat → List RawReview) → Nat → Option (List Review)
  | _, 0 => none
  | pages, fuel + 1 =>
    let reviews := pages 0
    if reviews = [] then
      some []
    else
      let out := pageYields app_id start_ts end_ts reviews
      if oldestTs reviews < start_ts then
        some out
      else
        (fetchLoop app_id start_ts end_ts (fun k => pages (k + 1)) fuel).map (out ++ ·)

/-- The fetcher `fetch_reviews(app_id, start_dt, end_dt, ...)`, after the
one-time conversion of the window bounds to epoch seconds. -/
def fetch_reviews (app_id start_ts end_ts : Int)
    (pages : Nat → List RawReview) (fuel : Nat) : Option (List Review) :=
  fetchLoop app_id start_ts end_ts pages fuel

lemma fetchLoop_succ (app_id start_ts end_ts : Int)
    (pages : Nat → List RawReview) (fuel : Nat) :
    fetchLoop app_id start_ts end_ts pages (fuel + 1) =
      if pages 0 = [] then some []
      else if oldestTs (pages 0) < start_ts then
        some (pageYields app_id start_ts end_ts (pages 0))
      else
        (fetchLoop app_id start_ts end_ts (fun k => pages (k + 1)) fuel).map
          (pageYields app_id start_ts end_ts (pages 0) ++ ·) := rfl

lemma mem_pageYields_bounds {app_id start_ts end_ts : Int}
    {page : List RawReview} {r : Review}
    (hr : r ∈ pageYields app_id start_ts end_ts page) :
    start_ts ≤ r.timestamp_created ∧ r.timestamp_created < end_ts := by
  rcases List.mem_map.mp hr with ⟨rv, hrv, hmk⟩
  rcases List.mem_filter.mp hrv with ⟨-, hwin⟩
  have hw := of_decide_eq_true hwin
  subst hmk
  simpa [mkReview] using hw

lemma fetchLoop_in_window (app_id start_ts end_ts : Int) :
    ∀ (fuel : Nat) (pages : Nat → List RawReview) (ys : List Review),
      fetchLoop app_id start_ts end_ts pages fuel = some ys →
      ∀ r ∈ ys, start_ts ≤ r.timestamp_created ∧ r.timestamp_created < end_ts := by
  intro fuel
  induction fuel with
  | zero => intro pages ys h; exact absurd h (by simp [fetchLoop])
  | succ n ih =>
    intro pages ys h r hr
    rw [fetchLoop_succ] at h
    by_cases h0 : pages 0 = []
    · simp only [h0, if_pos rfl] at h
      simp only [if_pos] at h
      cases h
      simp at hr
    · rw [if_neg h0] at h
      by_cases hold : oldestTs (pages 0) < start_ts
      · rw [if_pos hold] at h
        cases h
        exact mem_pageYields_bounds hr
      · rw [if_neg hold] at h
        rcases Option.map_eq_some'.mp h with ⟨rest, hrest, hys⟩
        subst hys
        rcases List.mem_append.mp hr with hl | hrr
        · exact mem_pageYields_bounds hl
        · exact ih _ rest hrest r hrr

/-- C1: every record yielded by `fetch_reviews` for the window
`[start_ts, end_ts)` has its creation timestamp `t` satisfying
`start_ts ≤ t < end_ts`, for every window and every upstream feed. -/
theorem fetch_reviews_in_window (app_id start_ts end_ts : Int)
    (pages : Nat → List RawReview) (fuel : Nat) (ys : List Review)
    (h : fetch_reviews app_id start_ts end_ts pages fuel = some ys)
    (r : Review) (hr : r ∈ ys) :
    start_ts ≤ r.timestamp_created ∧ r.timestamp_created < end_ts :=
  fetchLoop_in_window app_id start_ts end_ts fuel pages ys h r hr

/-- A raw entry with only the fields that matter to the claims set. -/
def sampleRaw (ts : Option Int) (vup : Bool) (votes : Int) : RawReview :=
  { timestamp_created := ts
    recommendationid := none
    author_steamid := none
    language := none
    review := none
    voted_up := some vup
    votes_up := votes
    votes_funny := none
    comment_count := none
    steam_purchase := none
    received_for_free := none
    playtime_at_review := none }

theorem fetch_reviews_in_window_witness :
    (10 : Int) ≤ (mkReview 1 (sampleRaw (some 15) true 3)).timestamp_created ∧
      (mkReview 1 (sampleRaw (some 15) true 3)).timestamp_created < 20 :=
  fetch_reviews_in_window 1 10 20
    (fun k => if k = 0 then [sampleRaw (some 15) true 3] else []) 2
    [mkReview 1 (sampleRaw (some 15) true 3)] (by decide)
    (mkReview 1 (sampleRaw (some 15) true 3)) (by decide)

/-- C3: the pagination loop stops as soon as it meets a page that is
empty (feed exhaustion) or whose last — oldest — record has a
timestamp strictly below the window's start bound.  Hence whenever the
feed presents such a page at some request index `N` (the situation the
claim's because-clause describes, which in particular always holds for
a finite feed), `fetch_reviews` terminates within `N + 1` page
requests, for every window — including windows matching no records. -/
theorem fetch_reviews_terminates (app_id start_ts end_ts : Int)
    (pages : Nat → List RawReview) (N : Nat)
    (h : pages N = [] ∨ oldestTs (pages N) < start_ts) :
    ∃ ys, fetch_reviews app_id start_ts end_ts pages (N + 1) = some ys := by
  unfold fetch_reviews
  induction N generalizing pages with
  | zero =>
    rw [fetchLoop_succ]
    by_cases h0 : pages 0 = []
    · exact ⟨[], by rw [if_pos h0]⟩
    · rcases h with h | h
      · exact absurd h h0
      · exact ⟨_, by rw [if_neg h0, if_pos h]⟩
  | succ n ih =>
    rw [fetchLoop_succ]
    by_cases h0 : pages 0 = []
    · exact ⟨[], by rw [if_pos h0]⟩
    · by_cases hold : oldestTs (pages 0) < start_ts
      · exact ⟨_, by rw [if_neg h0, if_pos hold]⟩
      · rcases ih (fun k => pages (k + 1)) h with ⟨ys, hys⟩
        exact ⟨_, by rw [if_neg h0, if_neg hold, hys]; rfl⟩

theorem fetch_reviews_terminates_witness :
    ∃ ys, fetch_reviews 1 10 20 (fun _ => []) 1 = some ys :=
  fetch_reviews_terminates 1 10 20 (fun _ => []) 0 (Or.inl rfl)

/-- C8: a page with zero entries halts pagination immediately and
terminally, with no error: if the `N`-th page is empty and the loop
actually reaches it (every earlier page is non-empty and does not
trigger the below-window stop), the fetch returns normally with
exactly the records yielded from the earlier pages. -/
theorem fetch_reviews_empty_page_halts (app_id start_ts end_ts : Int)
    (pages : Nat → List RawReview) (N : Nat)
    (hN : pages N = [])
    (hpre : ∀ k < N, pages k ≠ [] ∧ start_ts ≤ oldestTs (pages k)) :
    fetch_reviews app_id start_ts end_ts pages (N + 1) =
      some (((List.range N).map
        (fun k => pageYields app_id start_ts end_ts (pages k))).flatten) := by
  unfold fetch_reviews
  induction N generalizing pages with
  | zero =>
    rw [fetchLoop_succ, if_pos hN]
    simp
  | succ n ih =>
    obtain ⟨h0, hold⟩ := hpre 0 (Nat.succ_pos n)
    rw [fetchLoop_succ, if_neg h0, if_neg (not_lt.mpr hold)]
    have hrec := ih (fun k => pages (k + 1)) hN
      (fun k hk => hpre (k + 1) (Nat.succ_lt_succ hk))
    rw [hrec]
    simp only [Option.map_some']
    congr 1
    rw [List.range_succ_eq_map]
    simp only [List.map_cons, List.flatten_cons, List.map_map]
    rfl

theorem fetch_reviews_empty_page_halts_witness :
    fetch_reviews 1 10 20
        (fun k => if k = 0 then [sampleRaw (some 15) true 3] else []) 2 =
      some (((List.range 1).map
        (fun k => pageYields 1 10 20
          (if k = 0 then [sampleRaw (some 15) true 3] else []))).flatten) :=
  fetch_reviews_empty_page_halts 1 10 20
    (fun k => if k = 0 then [sampleRaw (some 15) true 3] else []) 1
    rfl
    (by
      intro k hk
      have hk0 : k = 0 := Nat.lt_one_iff.mp hk
      subst hk0
      exact ⟨by decide, by decide⟩)

lemma oldestTs_getLast : ∀ (p : List RawReview) (rv : RawReview),
    p.getLast? = some rv → oldestTs p = tsOf rv
  | [], rv, h => by simp at h
  | [a], rv, h => by
    simp only [List.getLast?_singleton, Option.some.injEq] at h
    subst h; rfl
  | a :: b :: t, rv, h => by
    rw [List.getLast?_cons_cons] at h
    exact oldestTs_getLast (b :: t) rv h

lemma flatten_map_range_succ {β : Type _} (f : Nat → List β) (n : Nat) :
    ((List.range (n + 1)).map f).flatten =
      f 0 ++ ((List.range n).map (fun k => f (k + 1))).flatten := by
  rw [List.range_succ_eq_map]
  simp only [List.map_cons, List.flatten_cons, List.map_map]
  rfl

/-- C10: if the last record of any non-empty page the loop reaches —
the `N`-th, after normal earlier pages — lacks a creation timestamp,
the termination check reads it as `0`; so for any window with a
positive start bound the loop stops right after that page with only
the yields of pages `0..N`, whatever the later pages contain: their
in-window records are silently lost, and any amount of extra fuel
changes nothing. -/
theorem fetch_reviews_missing_ts_truncates (app_id start_ts end_ts : Int)
    (pages : Nat → List RawReview) (N : Nat)
    (hpre : ∀ k < N, pages k ≠ [] ∧ start_ts ≤ oldestTs (pages k))
    (hN : pages N ≠ [])
    (hlast : ∃ rv, (pages N).getLast? = some rv ∧ rv.timestamp_created = none)
    (hs : 0 < start_ts) (fuel : Nat) :
    fetch_reviews app_id start_ts end_ts pages (N + fuel + 1) =
      some (((List.range (N + 1)).map
        (fun k => pageYields app_id start_ts end_ts (pages k))).flatten) := by
  unfold fetch_reviews
  induction N generalizing pages with
  | zero =>
    rcases hlast with ⟨rv, hrv, hnone⟩
    have hold : oldestTs (pages 0) < start_ts := by
      rw [oldestTs_getLast (pages 0) rv hrv]
      simpa [tsOf, hnone] using hs
    rw [fetchLoop_succ, if_neg hN, if_pos hold]
    rw [flatten_map_range_succ
      (fun k => pageYields app_id start_ts end_ts (pages k)) 0]
    simp
  | succ n ih =>
    obtain ⟨h0, hold⟩ := hpre 0 (Nat.succ_pos n)
    rw [fetchLoop_succ, if_neg h0, if_neg (not_lt.mpr hold)]
    have hfuel : n + 1 + fuel = n + fuel + 1 := by omega
    rw [hfuel,
      ih (fun k => pages (k + 1))
        (fun k hk => hpre (k + 1) (Nat.succ_lt_succ hk)) hN hlast]
    simp only [Option.map_some']
    congr 1
    rw [flatten_map_range_succ
      (fun k => pageYields app_id start_ts end_ts (pages k)) (n + 1)]

theorem fetch_reviews_missing_ts_truncates_witness :
    fetch_reviews 1 10 20
        (fun k => if k = 0 then [sampleRaw (some 15) true 3]
                  else if k = 1 then [sampleRaw none true 3]
                  else [sampleRaw (some 16) true 3]) 4 =
      some (((List.range 2).map
        (fun k => pageYields 1 10 20
          (if k = 0 then [sampleRaw (some 15) true 3]
           else if k = 1 then [sampleRaw none true 3]
           else [sampleRaw (some 16) true 3]))).flatten) :=
  fetch_reviews_missing_ts_truncates 1 10 20
    (fun k => if k = 0 then [sampleRaw (some 15) true 3]
              else if k = 1 then [sampleRaw none true 3]
              else [sampleRaw (some 16) true 3]) 1
    (by
      intro k hk
      have hk0 : k = 0 := Nat.lt_one_iff.mp hk
      subst hk0
      exact ⟨by decide, by decide⟩)
    (by decide) ⟨sampleRaw none true 3, rfl, rfl⟩ (by decide) 2

/-- The feed as `fetch_reviews` sees it when the upstream service holds
the finite page list `feed`: requests beyond the end return the empty
entry list, which per the feed contract signals exhaustion. -/
def pagesOf (feed : List (List RawReview)) : Nat → List RawReview :=
  fun k => feed.getD k []

lemma pageYields_append (app_id start_ts end_ts : Int)
    (p q : List RawReview) :
    pageYields app_id start_ts end_ts (p ++ q) =
      pageYields app_id start_ts end_ts p ++ pageYields app_id start_ts end_ts q := by
  simp [pageYields, List.filter_append]

lemma oldestTs_mem : ∀ (p : List RawReview), p ≠ [] →
    ∃ rv ∈ p, oldestTs p = tsOf rv
  | [], h => absurd rfl h
  | [a], _ => ⟨a, by simp, rfl⟩
  | a :: b :: t, _ => by
    rcases oldestTs_mem (b :: t) (by simp) with ⟨rv, hm, he⟩
    exact ⟨rv, List.mem_cons_of_mem a hm, he⟩

/-- C2: if the upstream feed (a finite list of non-empty pages,
exhaustion signalled by the empty page after them) presents its
records in non-increasing timestamp order, then `fetch_reviews`
yields exactly the in-window records of the whole feed, in feed
order — early termination misses nothing. -/
theorem fetch_reviews_complete (app_id start_ts end_ts : Int)
    (feed : List (List RawReview))
    (hne : ∀ p ∈ feed, p ≠ [])
    (hsorted : List.Pairwise (fun x y => tsOf y ≤ tsOf x) feed.flatten) :
    fetch_reviews app_id start_ts end_ts (pagesOf feed) (feed.length + 1) =
      some (pageYields app_id start_ts end_ts feed.flatten) := by
  unfold fetch_reviews
  induction feed with
  | nil =>
    rw [fetchLoop_succ]
    simp [pagesOf, pageYields]
  | cons p rest ih =>
    have h0 : pagesOf (p :: rest) 0 = p := rfl
    have hp : p ≠ [] := hne p (List.mem_cons_self p rest)
    have hjoin : (p :: rest).flatten = p ++ rest.flatten := by simp
    rw [hjoin] at hsorted ⊢
    rcases List.pairwise_append.mp hsorted with ⟨hs₁, hs₂, hcross⟩
    rw [fetchLoop_succ, h0, if_neg hp]
    by_cases hold : oldestTs p < start_ts
    · rw [if_pos hold]
      rcases oldestTs_mem p hp with ⟨rv, hrvmem, hrveq⟩
      rw [hrveq] at hold
      have hq : pageYields app_id start_ts end_ts rest.flatten = [] := by
        unfold pageYields
        rw [List.filter_eq_nil_iff.mpr, List.map_nil]
        intro b hb
        have hle : tsOf b ≤ tsOf rv := hcross rv hrvmem b hb
        simp only [inWindow, decide_eq_true_eq, not_and]
        intro hsb
        exact absurd (lt_of_le_of_lt (hsb.trans hle) hold) (lt_irrefl _)
      rw [pageYields_append, hq, List.append_nil]
    · rw [if_neg hold]
      have hshift : (fun k => pagesOf (p :: rest) (k + 1)) = pagesOf rest := by
        funext k
        simp [pagesOf]
      have hlen : (p :: rest).length = rest.length + 1 := rfl
      rw [hshift, hlen,
        ih (fun q hq => hne q (List.mem_cons_of_mem p hq)) hs₂]
      rw [pageYields_append]
      rfl

theorem fetch_reviews_complete_witness :
    fetch_reviews 1 10 20
        (pagesOf [[sampleRaw (some 25) true 0, sampleRaw (some 15) true 1],
                  [sampleRaw (some 5) true 2]]) 3 =
      some (pageYields 1 10 20
        ([[sampleRaw (some 25) true 0, sampleRaw (some 15) true 1],
          [sampleRaw (some 5) true 2]] : List (List RawReview)).flatten) :=
  fetch_reviews_complete 1 10 20
    [[sampleRaw (some 25) true 0, sampleRaw (some 15) true 1],
     [sampleRaw (some 5) true 2]]
    (by decide) (by decide)

/-- Digit-tail parse of a Python decimal literal: digits, with a single
underscore allowed between two digits (`1_2` is valid, `1_`, `_1` and
`1__2` are not). -/
def pyDigitsGo (acc : Nat) : List Char → Option Nat
  | [] => some acc
  | '_' :: c :: cs =>
    if c.isDigit then pyDigitsGo (acc * 10 + (c.toNat - 48)) cs else none
  | ['_'] => none
  | c :: cs =>
    if c.isDigit then pyDigitsGo (acc * 10 + (c.toNat - 48)) cs else none

/-- A non-empty digit run of Python `int`, first character a digit. -/
def pyDigits : List Char → Option Nat
  | [] => none
  | c :: cs => if c.isDigit then pyDigitsGo (c.toNat - 48) cs else none

/-- Python's `int(s)` on a decimal string: optional surrounding
whitespace, an optional sign, then a non-empty digit run.  `none`
whenever `int` would raise `ValueError`.  Modelled for ASCII decimal
notation, the case the code meets on URL path segments. -/
def pyInt (s : String) : Option Int :=
  let cs := ((s.data.dropWhile Char.isWhitespace).reverse.dropWhile
    Char.isWhitespace).reverse
  match cs with
  | '+' :: rest => (pyDigits rest).map (fun n => (n : Int))
  | '-' :: rest => (pyDigits rest).map (fun n => -(n : Int))
  | rest => (pyDigits rest).map (fun n => (n : Int))

/-- The scan of `get_appid_from_url` over the non-empty URL segments:
the first `'app'` segment that has a successor decides the result —
`int` of the successor, whose `ValueError` propagates; an `'app'` at
the very end is skipped, and a scan that finds nothing raises. -/
def findAppid : List String → Except String Int
  | [] => Except.error "URL tidak valid untuk mendeteksi APPID."
  | p :: rest =>
    if p = "app" then
      match rest with
      | [] => findAppid rest
      | q :: _ =>
        match pyInt q with
        | some n => Except.ok n
        | none => Except.error "invalid literal for int with base 10"
    else findAppid rest

/-- The non-empty segments of the URL: `[p for p in url.split('/') if p]`. -/
def urlSegments (url : String) : List String :=
  (url.split (fun c => c = '/')).filter (fun s => !(s == ""))

/-- The identifier extractor `get_appid_from_url`. -/
def get_appid_from_url (url : String) : Except String Int :=
  findAppid (urlSegments url)

lemma findAppid_ok_iff : ∀ (ps : List String) (n : Int),
    findAppid ps = Except.ok n ↔
      ∃ i, ps[i]? = some "app" ∧ (∀ j < i, ps[j]? ≠ some "app") ∧
        ∃ q, ps[i + 1]? = some q ∧ pyInt q = some n := by
  intro ps
  induction ps with
  | nil =>
    intro n
    simp [findAppid]
  | cons p rest ih =>
    intro n
    by_cases hp : p = "app"
    · subst hp
      cases rest with
      | nil =>
        simp only [findAppid, if_pos rfl]
        constructor
        · intro h; exact absurd h (by simp [findAppid])
        · rintro ⟨i, hi, -, q, hq, -⟩
          cases i with
          | zero => simp at hq
          | succ i => simp at hi
      | cons q rs =>
        cases hq : pyInt q with
        | some m =>
          have hstep : findAppid ("app" :: q :: rs) = Except.ok m := by
            simp [findAppid, hq]
          rw [hstep]
          constructor
          · intro h
            injection h with h
            exact ⟨0, by simp, by simp, q, by simp, by rw [hq, h]⟩
          · rintro ⟨i, hi, hfirst, q', hq', hn⟩
            cases i with
            | zero =>
              simp only [List.getElem?_cons_succ, List.getElem?_cons_zero,
                Option.some.injEq] at hq'
              subst hq'
              rw [hq] at hn
              injection hn with hn
              rw [hn]
            | succ i =>
              exact absurd (by simp : (("app" :: q :: rs) : List String)[0]? = some "app")
                (hfirst 0 (Nat.succ_pos i))
        | none =>
          have hstep : findAppid ("app" :: q :: rs) =
              Except.error "invalid literal for int with base 10" := by
            simp [findAppid, hq]
          rw [hstep]
          constructor
          · intro h; cases h
          · rintro ⟨i, hi, hfirst, q', hq', hn⟩
            cases i with
            | zero =>
              simp only [List.getElem?_cons_succ, List.getElem?_cons_zero,
                Option.some.injEq] at hq'
              subst hq'
              rw [hq] at hn
              cases hn
            | succ i =>
              exact absurd (by simp : (("app" :: q :: rs) : List String)[0]? = some "app")
                (hfirst 0 (Nat.succ_pos i))
    · have hstep : findAppid (p :: rest) = findAppid rest := by
        simp [findAppid, hp]
      rw [hstep, ih n]
      constructor
      · rintro ⟨i, hi, hfirst, q, hq, hn⟩
        refine ⟨i + 1, by simpa using hi, ?_, q, by simpa using hq, hn⟩
        intro j hj
        cases j with
        | zero =>
          simp only [List.getElem?_cons_zero, ne_eq, Option.some.injEq]
          exact hp
        | succ j =>
          simpa using hfirst j (Nat.lt_of_succ_lt_succ hj)
      · rintro ⟨i, hi, hfirst, q, hq, hn⟩
        cases i with
        | zero =>
          simp only [List.getElem?_cons_zero, Option.some.injEq] at hi
          exact absurd hi hp
        | succ i =>
          refine ⟨i, by simpa using hi, ?_, q, by simpa using hq, hn⟩
          intro j hj
          simpa using hfirst (j + 1) (Nat.succ_lt_succ hj)

/-- C9: `get_appid_from_url` returns `n` exactly when the segment after
the first `'app'` marker segment that has a successor parses as the
integer `n`; in every other case — no such marker, or a successor that
is not a valid integer — it fails with the `ValueError` mapped to
`InvalidIdentifierSource`, returning no partial result. -/
theorem get_appid_from_url_spec (url : String) (n : Int) :
    (get_appid_from_url url = Except.ok n ↔
      ∃ i, (urlSegments url)[i]? = some "app" ∧
        (∀ j < i, (urlSegments url)[j]? ≠ some "app") ∧
        ∃ q, (urlSegments url)[i + 1]? = some q ∧ pyInt q = some n) ∧
    ((∃ msg, get_appid_from_url url = Except.error msg) ↔
      ¬ ∃ i, (urlSegments url)[i]? = some "app" ∧
        (∀ j < i, (urlSegments url)[j]? ≠ some "app") ∧
        ∃ q, (urlSegments url)[i + 1]? = some q ∧ ∃ m, pyInt q = some m) := by
  constructor
  · exact findAppid_ok_iff (urlSegments url) n
  · constructor
    · rintro ⟨msg, hmsg⟩ ⟨i, hi, hfirst, q, hq, m, hm⟩
      have hok : findAppid (urlSegments url) = Except.ok m :=
        (findAppid_ok_iff (urlSegments url) m).mpr ⟨i, hi, hfirst, q, hq, hm⟩
      rw [get_appid_from_url] at hmsg
      rw [hok] at hmsg
      cases hmsg
    · intro h
      cases hres : get_appid_from_url url with
      | ok v =>
        exfalso
        rcases (findAppid_ok_iff (urlSegments url) v).mp hres
          with ⟨i, hi, hfirst, q, hq, hv⟩
        exact h ⟨i, hi, hfirst, q, hq, v, hv⟩
      | error msg => exact ⟨msg, rfl⟩

/-- Gregorian civil year and month of a day count relative to
1970-01-01 (the date `datetime.utcfromtimestamp` derives), via the
standard era decomposition of the proleptic Gregorian calendar. -/
def civilYM (z : Int) : Int × Int :=
  let d := z + 719468
  let era := d.fdiv 146097
  let doe := d - era * 146097
  let yoe := (doe - doe / 1460 + doe / 36524 - doe / 146096) / 365
  let y := yoe + era * 400
  let doy := doe - (365 * yoe + yoe / 4 - yoe / 100)
  let mp := (5 * doy + 2) / 153
  let m := mp + (if mp < 10 then 3 else -9)
  (y + (if m ≤ 2 then 1 else 0), m)

/-- The monthly bucket `to_period("M").astype(str)` of a record's UTC
creation instant, linearised as `year * 12 + (month - 1)`, whose order
agrees with the order of the "YYYY-MM" strings pandas groups and
sorts by. -/
def monthKey (ts : Int) : Int :=
  let ym := civilYM (ts.fdiv 86400)
  ym.1 * 12 + (ym.2 - 1)

/-- The month column value of one fetched record. -/
def monthOf (r : Review) : Int :=
  monthKey r.timestamp_created

/-- Insert into a sorted list before the first element that `a` may
precede: the stable position, matching the stable `lexsort`-based
multi-column `sort_values`. -/
def orderedInsert {α : Type _} (le : α → α → Bool) (a : α) : List α → List α
  | [] => [a]
  | x :: xs => if le a x then a :: x :: xs else x :: orderedInsert le a xs

/-- Stable insertion sort: an earlier element is inserted after the
later ones have been sorted, and lands before every tie. -/
def insertionSort {α : Type _} (le : α → α → Bool) : List α → List α
  | [] => []
  | a :: l => orderedInsert le a (insertionSort le l)

/-- The `sort_values(["month", "votes_up"], ascending=[True, False])`
key order: month ascending, then helpfulness votes descending. -/
def monthVotesLe (a b : Review) : Bool :=
  decide (monthOf a < monthOf b ∨ (monthOf a = monthOf b ∧ b.votes_up ≤ a.votes_up))

/-- Helpfulness votes descending: the within-month sampling order of
top-helpful mode. -/
def votesDescLe (a b : Review) : Bool :=
  decide (b.votes_up ≤ a.votes_up)

def intLe (a b : Int) : Bool :=
  decide (a ≤ b)

/-- The `groupby("month", group_keys=False).head(n)` step: walk the
frame in order and keep each row whose month has been seen fewer than
`n` times so far. -/
def headPerGroupAux (n : Nat) : (Int → Nat) → List Review → List Review
  | _, [] => []
  | cnt, r :: rs =>
    if cnt (monthOf r) < n then
      r :: headPerGroupAux n
        (fun m => if m = monthOf r then cnt (monthOf r) + 1 else cnt m) rs
    else
      headPerGroupAux n cnt rs

/-- The distinct months of the frame in ascending order: the group
keys `df.groupby("month")` iterates over. -/
def distinctMonths (df : List Review) : List Int :=
  insertionSort intLe (df.map monthOf).dedup

/-- The random-mode loop `for month, group in df.groupby("month")`:
the `k`-th group draws the sub-seed `randSeq seed k` — the `k`-th
value of `random.Random(seed).randint(0, 10**9)` — and samples
`min(n, len(group))` of its rows with `pdSample`. -/
def randomModeAux (randSeq : Nat → Nat → Nat)
    (pdSample : Nat → Nat → List Review → List Review)
    (df : List Review) (n seed : Nat) : List Int → Nat → List Review
  | [], _ => []
  | M :: ms, k =>
    let g := df.filter (fun r => decide (monthOf r = M))
    pdSample (randSeq seed k) (min n g.length) g ++
      randomModeAux randSeq pdSample df n seed ms (k + 1)

/-- The sampler `monthly_sample(df, n_per_month, seed, by_top_helpful)`.
The two library randomness primitives are kept abstract as explicit
deterministic parameters: `randSeq seed k` models the `k`-th draw of
`random.Random(seed).randint(0, 10**9)` and `pdSample state k g`
models `g.sample(n=k, random_state=state)` — each a fixed function of
the seed material it is given, which is how the seeded library
generators behave on every platform. -/
def monthly_sample (randSeq : Nat → Nat → Nat)
    (pdSample : Nat → Nat → List Review → List Review)
    (df : List Review) (n_per_month : Nat) (seed : Nat)
    (by_top_helpful : Bool) : List Review :=
  if by_top_helpful then
    headPerGroupAux n_per_month (fun _ => 0) (insertionSort monthVotesLe df)
  else
    randomModeAux randSeq pdSample df n_per_month seed (distinctMonths df) 0

/-- One output row of `monthly_summary`. -/
structure SummaryRow where
  month : Int
  total_reviews : Nat
  positive : Nat
  negative : Nat
  pos_share : ℚ
deriving DecidableEq, Repr

/-- Rounding to three decimal places, `(...).round(3)`, in exact
rational arithmetic. -/
def round3 (q : ℚ) : ℚ :=
  (round (1000 * q) : Int) / 1000

/-- The row computed for one month group: total count, count of
positive recommendations, `negative = total - positive` and
`pos_share = (positive / total).round(3)`. -/
def summaryRow (df : List Review) (M : Int) : SummaryRow :=
  let g := df.filter (fun r => decide (monthOf r = M))
  let pos := g.countP (fun r => r.voted_up)
  { month := M
    total_reviews := g.length
    positive := pos
    negative := g.length - pos
    pos_share := round3 ((pos : ℚ) / (g.length : ℚ)) }

/-- The aggregator `monthly_summary(df)`: one row per distinct month,
in ascending month order. -/
def monthly_summary (df : List Review) : List SummaryRow :=
  (distinctMonths df).map (summaryRow df)

/-- The position at which the loop index of `randomModeAux` reaches a
month: the number of draws consumed before that month's group is
sampled. -/
def monthPos (M : Int) : List Int → Nat
  | [] => 0
  | M2 :: ms => if M2 = M then 0 else monthPos M ms + 1

lemma mem_orderedInsert {α : Type _} (le : α → α → Bool) (a b : α) :
    ∀ (l : List α), b ∈ orderedInsert le a l ↔ b = a ∨ b ∈ l
  | [] => by simp [orderedInsert]
  | x :: xs => by
    by_cases h : le a x
    · simp [orderedInsert, h]
    · simp only [orderedInsert, if_neg h, List.mem_cons,
        mem_orderedInsert le a b xs]
      tauto

lemma orderedInsert_perm {α : Type _} (le : α → α → Bool) (a : α) :
    ∀ (l : List α), (orderedInsert le a l).Perm (a :: l)
  | [] => List.Perm.refl _
  | x :: xs => by
    by_cases h : le a x
    · simp [orderedInsert, h]
    · simp only [orderedInsert, if_neg h]
      exact ((orderedInsert_perm le a xs).cons x).trans (List.Perm.swap a x xs)

lemma insertionSort_perm {α : Type _} (le : α → α → Bool) :
    ∀ (l : List α), (insertionSort le l).Perm l
  | [] => List.Perm.refl _
  | a :: l =>
    (orderedInsert_perm le a (insertionSort le l)).trans
      ((insertionSort_perm le l).cons a)

lemma orderedInsert_of_forall_le {α : Type _} (le : α → α → Bool) (a : α)
    {l : List α} (h : ∀ b ∈ l, le a b = true) :
    orderedInsert le a l = a :: l := by
  cases l with
  | nil => rfl
  | cons x xs => simp [orderedInsert, h x (List.mem_cons_self x xs)]

lemma filter_orderedInsert_neg {α : Type _} (le : α → α → Bool) (p : α → Bool)
    (a : α) (hpa : p a = false) :
    ∀ (l : List α), (orderedInsert le a l).filter p = l.filter p
  | [] => by simp [orderedInsert, hpa]
  | x :: xs => by
    by_cases h : le a x
    · simp [orderedInsert, h, List.filter_cons, hpa]
    · simp only [orderedInsert, if_neg h, List.filter_cons]
      cases hpx : p x <;>
        simp [hpx, filter_orderedInsert_neg le p a hpa xs]

lemma filter_orderedInsert_pos {α : Type _} (le : α → α → Bool) (p : α → Bool)
    (htrans : ∀ x y z, le x y = true → le y z = true → le x z = true)
    (a : α) (hpa : p a = true) :
    ∀ (l : List α), List.Pairwise (fun x y => le x y = true) l →
      (orderedInsert le a l).filter p = orderedInsert le a (l.filter p)
  | [], _ => by simp [orderedInsert, hpa]
  | x :: xs, hsort => by
    rcases List.pairwise_cons.mp hsort with ⟨hx, hxs⟩
    by_cases hax : le a x = true
    · by_cases hpx : p x = true
      · simp [orderedInsert, hax, List.filter_cons, hpa, hpx]
      · have hpx' : p x = false := by
          cases h : p x
          · rfl
          · exact absurd h hpx
        have hall : ∀ b ∈ xs.filter p, le a b = true := by
          intro b hb
          exact htrans a x b hax (hx b (List.mem_of_mem_filter hb))
        simp [orderedInsert, hax, List.filter_cons, hpa, hpx',
          orderedInsert_of_forall_le le a hall]
    · by_cases hpx : p x = true
      · simp only [orderedInsert, if_neg hax, List.filter_cons, hpx, hpa,
          if_true]
        rw [filter_orderedInsert_pos le p htrans a hpa xs hxs]
      · have hpx' : p x = false := by
          cases h : p x
          · rfl
          · exact absurd h hpx
        simp only [orderedInsert, if_neg hax, List.filter_cons, hpx',
          if_false]
        rw [filter_orderedInsert_pos le p htrans a hpa xs hxs]
        simp

lemma orderedInsert_pairwise {α : Type _} (le : α → α → Bool)
    (htrans : ∀ x y z, le x y = true → le y z = true → le x z = true)
    (htot : ∀ x y, le x y = true ∨ le y x = true) (a : α) :
    ∀ (l : List α), List.Pairwise (fun x y => le x y = true) l →
      List.Pairwise (fun x y => le x y = true) (orderedInsert le a l)
  | [], _ => by simp [orderedInsert]
  | x :: xs, h => by
    rcases List.pairwise_cons.mp h with ⟨hx, hxs⟩
    by_cases hax : le a x = true
    · simp only [orderedInsert, hax, if_true]
      refine List.Pairwise.cons ?_ h
      intro b hb
      rcases List.mem_cons.mp hb with rfl | hb
      · exact hax
      · exact htrans a x b hax (hx b hb)
    · have hxa : le x a = true := (htot a x).resolve_left hax
      simp only [orderedInsert, if_neg hax]
      refine List.Pairwise.cons ?_
        (orderedInsert_pairwise le htrans htot a xs hxs)
      intro b hb
      rcases (mem_orderedInsert le a b xs).mp hb with rfl | hb
      · exact hxa
      · exact hx b hb

lemma insertionSort_sorted {α : Type _} (le : α → α → Bool)
    (htrans : ∀ x y z, le x y = true → le y z = true → le x z = true)
    (htot : ∀ x y, le x y = true ∨ le y x = true) :
    ∀ (l : List α),
      List.Pairwise (fun x y => le x y = true) (insertionSort le l)
  | [] => by simp [insertionSort]
  | a :: l =>
    orderedInsert_pairwise le htrans htot a (insertionSort le l)
      (insertionSort_sorted le htrans htot l)

lemma filter_insertionSort {α : Type _} (le : α → α → Bool) (p : α → Bool)
    (htrans : ∀ x y z, le x y = true → le y z = true → le x z = true)
    (htot : ∀ x y, le x y = true ∨ le y x = true) :
    ∀ (l : List α),
      (insertionSort le l).filter p = insertionSort le (l.filter p)
  | [] => rfl
  | a :: l => by
    cases hpa : p a
    · simp only [insertionSort, List.filter_cons, hpa, if_false]
      rw [filter_orderedInsert_neg le p a hpa,
        filter_insertionSort le p htrans htot l]
      simp
    · simp only [insertionSort, List.filter_cons, hpa, if_true]
      rw [filter_orderedInsert_pos le p htrans a hpa (insertionSort le l)
          (insertionSort_sorted le htrans htot l),
        filter_insertionSort le p htrans htot l]

lemma orderedInsert_congr {α : Type _} (le₁ le₂ : α → α → Bool) (a : α) :
    ∀ (l : List α), (∀ y ∈ l, le₁ a y = le₂ a y) →
      orderedInsert le₁ a l = orderedInsert le₂ a l
  | [], _ => rfl
  | x :: xs, h => by
    have hx : le₁ a x = le₂ a x := h x (List.mem_cons_self x xs)
    by_cases hax : le₂ a x = true
    · simp [orderedInsert, hx, hax]
    · have hax' : le₂ a x = false := by
        cases h2 : le₂ a x
        · rfl
        · exact absurd h2 hax
      simp [orderedInsert, hx, hax',
        orderedInsert_congr le₁ le₂ a xs
          (fun y hy => h y (List.mem_cons_of_mem x hy))]

lemma insertionSort_congr {α : Type _} (le₁ le₂ : α → α → Bool) :
    ∀ (l : List α), (∀ x ∈ l, ∀ y ∈ l, le₁ x y = le₂ x y) →
      insertionSort le₁ l = insertionSort le₂ l
  | [], _ => rfl
  | a :: l, h => by
    simp only [insertionSort]
    rw [insertionSort_congr le₁ le₂ l
      (fun x hx y hy =>
        h x (List.mem_cons_of_mem a hx) y (List.mem_cons_of_mem a hy))]
    exact orderedInsert_congr le₁ le₂ a (insertionSort le₂ l)
      (fun y hy =>
        h a (List.mem_cons_self a l) y
          (List.mem_cons_of_mem a ((insertionSort_perm le₂ l).mem_iff.mp hy)))

lemma filter_headPerGroupAux (n : Nat) (M : Int) :
    ∀ (l : List Review) (cnt : Int → Nat),
      (headPerGroupAux n cnt l).filter (fun r => decide (monthOf r = M)) =
        (l.filter (fun r => decide (monthOf r = M))).take (n - cnt M)
  | [], cnt => by simp [headPerGroupAux]
  | r :: rs, cnt => by
    simp only [headPerGroupAux]
    by_cases hc : cnt (monthOf r) < n
    · rw [if_pos hc]
      by_cases hm : monthOf r = M
      · subst hm
        simp only [List.filter_cons, decide_True, if_true]
        rw [filter_headPerGroupAux n (monthOf r) rs _]
        have h1 : n - cnt (monthOf r) = (n - (cnt (monthOf r) + 1)) + 1 := by
          omega
        rw [h1, List.take_succ_cons]
        simp
      · simp only [List.filter_cons, hm, decide_False, if_false]
        rw [filter_headPerGroupAux n M rs _]
        have h2 : (if M = monthOf r then cnt (monthOf r) + 1 else cnt M) =
            cnt M := by
          rw [if_neg (fun h => hm h.symm)]
        rw [h2]
        simp
    · rw [if_neg hc]
      by_cases hm : monthOf r = M
      · subst hm
        rw [filter_headPerGroupAux n (monthOf r) rs cnt]
        have h0 : n - cnt (monthOf r) = 0 := by omega
        simp [List.filter_cons, h0]
      · simp only [List.filter_cons, hm, decide_False, if_false]
        rw [filter_headPerGroupAux n M rs cnt]
        simp

/-- C6: in top-helpful mode the rows `monthly_sample` keeps for any
calendar month `M` are exactly the first `n` of that month's rows
sorted by helpfulness votes descending with the stable insertion sort
(ties keep their original relative order); and a month with at most
`n` rows keeps all of its rows. -/
theorem monthly_sample_top_helpful (randSeq : Nat → Nat → Nat)
    (pdSample : Nat → Nat → List Review → List Review)
    (df : List Review) (n seed : Nat) (M : Int) :
    ((monthly_sample randSeq pdSample df n seed true).filter
        (fun r => decide (monthOf r = M)) =
      (insertionSort votesDescLe
        (df.filter (fun r => decide (monthOf r = M)))).take n) ∧
    ((df.filter (fun r => decide (monthOf r = M))).length ≤ n →
      ((monthly_sample randSeq pdSample df n seed true).filter
          (fun r => decide (monthOf r = M))).Perm
        (df.filter (fun r => decide (monthOf r = M)))) := by
  have htrans : ∀ x y z : Review, monthVotesLe x y = true →
      monthVotesLe y z = true → monthVotesLe x z = true := by
    intro x y z hxy hyz
    simp only [monthVotesLe, decide_eq_true_eq] at hxy hyz ⊢
    omega
  have htot : ∀ x y : Review,
      monthVotesLe x y = true ∨ monthVotesLe y x = true := by
    intro x y
    simp only [monthVotesLe, decide_eq_true_eq]
    by_cases hm : monthOf x = monthOf y
    · rcases le_total x.votes_up y.votes_up with hv | hv
      · exact Or.inr (Or.inr ⟨hm.symm, hv⟩)
      · exact Or.inl (Or.inr ⟨hm, hv⟩)
    · rcases lt_or_gt_of_ne hm with h | h
      · exact Or.inl (Or.inl h)
      · exact Or.inr (Or.inl h)
  have hmain : (monthly_sample randSeq pdSample df n seed true).filter
      (fun r => decide (monthOf r = M)) =
      (insertionSort votesDescLe
        (df.filter (fun r => decide (monthOf r = M)))).take n := by
    have hmode : monthly_sample randSeq pdSample df n seed true =
        headPerGroupAux n (fun _ => 0) (insertionSort monthVotesLe df) := rfl
    rw [hmode, filter_headPerGroupAux,
      filter_insertionSort monthVotesLe _ htrans htot df,
      insertionSort_congr monthVotesLe votesDescLe _ ?hcong]
    · simp
    case hcong =>
      intro x hx y hy
      have hxM : monthOf x = M := of_decide_eq_true (List.mem_filter.mp hx).2
      have hyM : monthOf y = M := of_decide_eq_true (List.mem_filter.mp hy).2
      simp only [monthVotesLe, votesDescLe, hxM, hyM]
      rw [decide_eq_decide]
      constructor
      · rintro (h | ⟨-, h⟩)
        · exact absurd h (lt_irrefl M)
        · exact h
      · intro h
        exact Or.inr ⟨by trivial, h⟩
  refine ⟨hmain, fun hlen => ?_⟩
  rw [hmain]
  have hperm := insertionSort_perm votesDescLe
    (df.filter (fun r => decide (monthOf r = M)))
  have hlen' : (insertionSort votesDescLe
      (df.filter (fun r => decide (monthOf r = M)))).length ≤ n := by
    rw [hperm.length_eq]
    exact hlen
  rw [List.take_of_length_le hlen']
  exact hperm

/-- A record with only the fields the sampler and aggregator read. -/
def sampleReview (ts : Int) (vup : Bool) (votes : Int) : Review :=
  { app_id := 0
    recommendationid := none
    author_steamid := none
    language := none
    review_text := none
    timestamp_created := ts
    voted_up := vup
    votes_up := votes
    votes_funny := none
    comment_count := none
    steam_purchase := none
    received_for_free := none
    playtime_at_review := none }

theorem monthly_sample_top_helpful_witness :
    ((monthly_sample (fun _ _ => 0) (fun _ k g => g.take k)
        [sampleReview 0 true 5, sampleReview 1 true 5, sampleReview 2 true 7]
        3 0 true).filter (fun r => decide (monthOf r = 23640)) =
      (insertionSort votesDescLe
        (([sampleReview 0 true 5, sampleReview 1 true 5,
           sampleReview 2 true 7] : List Review).filter
          (fun r => decide (monthOf r = 23640)))).take 3) ∧
    ((monthly_sample (fun _ _ => 0) (fun _ k g => g.take k)
        [sampleReview 0 true 5, sampleReview 1 true 5, sampleReview 2 true 7]
        3 0 true).filter (fun r => decide (monthOf r = 23640))).Perm
      (([sampleReview 0 true 5, sampleReview 1 true 5,
         sampleReview 2 true 7] : List Review).filter
        (fun r => decide (monthOf r = 23640))) :=
  ⟨(monthly_sample_top_helpful (fun _ _ => 0) (fun _ k g => g.take k)
      [sampleReview 0 true 5, sampleReview 1 true 5, sampleReview 2 true 7]
      3 0 23640).1,
   (monthly_sample_top_helpful (fun _ _ => 0) (fun _ k g => g.take k)
      [sampleReview 0 true 5, sampleReview 1 true 5, sampleReview 2 true 7]
      3 0 23640).2 (by decide)⟩

/-- C4: the sampled subset is a deterministic function of the seed,
the input record set, the quota and the mode.  The two seeded library
generators enter only through `randSeq`/`pdSample`, fixed functions of
the seed material they are handed — which is how `random.Random(seed)`
and `DataFrame.sample(random_state=...)` behave on every platform — so
two runs on equal inputs produce the identical subset. -/
theorem monthly_sample_deterministic (randSeq : Nat → Nat → Nat)
    (pdSample : Nat → Nat → List Review → List Review)
    (df₁ df₂ : List Review) (n₁ n₂ seed₁ seed₂ : Nat) (mode₁ mode₂ : Bool)
    (hdf : df₁ = df₂) (hn : n₁ = n₂) (hseed : seed₁ = seed₂)
    (hmode : mode₁ = mode₂) :
    monthly_sample randSeq pdSample df₁ n₁ seed₁ mode₁ =
      monthly_sample randSeq pdSample df₂ n₂ seed₂ mode₂ := by
  subst hdf hn hseed hmode
  rfl

theorem monthly_sample_deterministic_witness :
    monthly_sample (fun _ _ => 0) (fun _ k g => g.take k)
        [sampleReview 0 true 1] 1 42 false =
      monthly_sample (fun _ _ => 0) (fun _ k g => g.take k)
        [sampleReview 0 true 1] 1 42 false :=
  monthly_sample_deterministic (fun _ _ => 0) (fun _ k g => g.take k)
    [sampleReview 0 true 1] [sampleReview 0 true 1] 1 1 42 42 false false
    rfl rfl rfl rfl

lemma mem_distinctMonths (df : List Review) (M : Int) :
    M ∈ distinctMonths df ↔ ∃ r ∈ df, monthOf r = M := by
  unfold distinctMonths
  rw [(insertionSort_perm intLe _).mem_iff, List.mem_dedup, List.mem_map]

lemma distinctMonths_nodup (df : List Review) : (distinctMonths df).Nodup :=
  (insertionSort_perm intLe _).symm.nodup (List.nodup_dedup _)

lemma mem_distinctMonths_iff_filter (df : List Review) (M : Int) :
    M ∈ distinctMonths df ↔
      df.filter (fun r => decide (monthOf r = M)) ≠ [] := by
  rw [mem_distinctMonths]
  constructor
  · rintro ⟨r, hr, hm⟩
    exact List.ne_nil_of_mem (List.mem_filter.mpr ⟨hr, by simp [hm]⟩)
  · intro h
    rcases List.exists_mem_of_ne_nil _ h with ⟨r, hr⟩
    rcases List.mem_filter.mp hr with ⟨hrdf, hrm⟩
    exact ⟨r, hrdf, of_decide_eq_true hrm⟩

lemma filter_randomModeAux (randSeq : Nat → Nat → Nat)
    (pdSample : Nat → Nat → List Review → List Review)
    (df : List Review) (n seed : Nat) (M : Int)
    (hS : ∀ state k g, ∀ x ∈ pdSample state k g, x ∈ g) :
    ∀ (ms : List Int) (k : Nat), ms.Nodup →
      (randomModeAux randSeq pdSample df n seed ms k).filter
          (fun r => decide (monthOf r = M)) =
        if M ∈ ms then
          pdSample (randSeq seed (k + monthPos M ms))
            (min n (df.filter (fun r => decide (monthOf r = M))).length)
            (df.filter (fun r => decide (monthOf r = M)))
        else []
  | [], k, _ => by simp [randomModeAux]
  | M2 :: ms, k, hnd => by
    rcases List.nodup_cons.mp hnd with ⟨hM2, hnd'⟩
    simp only [randomModeAux, List.filter_append]
    by_cases h2 : M2 = M
    · subst h2
      have hself : (pdSample (randSeq seed k)
          (min n (df.filter (fun r => decide (monthOf r = M2))).length)
          (df.filter (fun r => decide (monthOf r = M2)))).filter
            (fun r => decide (monthOf r = M2)) =
          pdSample (randSeq seed k)
            (min n (df.filter (fun r => decide (monthOf r = M2))).length)
            (df.filter (fun r => decide (monthOf r = M2))) :=
        List.filter_eq_self.mpr
          (fun x hx => (List.mem_filter.mp (hS _ _ _ x hx)).2)
      rw [hself,
        filter_randomModeAux randSeq pdSample df n seed M2 hS ms (k + 1) hnd',
        if_neg hM2, if_pos (List.mem_cons_self M2 ms)]
      simp [monthPos]
    · have hnil : (pdSample (randSeq seed k)
          (min n (df.filter (fun r => decide (monthOf r = M2))).length)
          (df.filter (fun r => decide (monthOf r = M2)))).filter
            (fun r => decide (monthOf r = M)) = [] := by
        rw [List.filter_eq_nil_iff]
        intro x hx
        have hxm : monthOf x = M2 :=
          of_decide_eq_true (List.mem_filter.mp (hS _ _ _ x hx)).2
        simp [hxm, h2]
      rw [hnil,
        filter_randomModeAux randSeq pdSample df n seed M hS ms (k + 1) hnd']
      by_cases hm : M ∈ ms
      · rw [if_pos hm, if_pos (List.mem_cons_of_mem M2 hm)]
        have hstep : monthPos M (M2 :: ms) = monthPos M ms + 1 := by
          simp [monthPos, h2]
        rw [hstep]
        have harith : k + 1 + monthPos M ms = k + (monthPos M ms + 1) := by
          omega
        rw [harith]
        simp
      · have hnotin : M ∉ M2 :: ms := by
          intro h
          rcases List.mem_cons.mp h with h | h
          · exact h2 h.symm
          · exact hm h
        rw [if_neg hm, if_neg hnotin]
        simp

/-- C5 amended: the sub-seed of a month's draw is the sequential draw
at that month's position in the ascending list of months present in
the input, so month `M`'s sampled subset is preserved between two
inputs exactly when they agree on month `M`'s rows and `M` keeps the
same position in both month lists — in particular whenever data of
months after `M` is inserted or removed, but not in general for
earlier months.  `pdSample` may be any sampler drawing from the group
it is given. -/
theorem monthly_sample_month_stable (randSeq : Nat → Nat → Nat)
    (pdSample : Nat → Nat → List Review → List Review)
    (df₁ df₂ : List Review) (n seed : Nat) (M : Int)
    (hS : ∀ state k g, ∀ x ∈ pdSample state k g, x ∈ g)
    (hgroup : df₁.filter (fun r => decide (monthOf r = M)) =
      df₂.filter (fun r => decide (monthOf r = M)))
    (hpos : monthPos M (distinctMonths df₁) =
      monthPos M (distinctMonths df₂)) :
    (monthly_sample randSeq pdSample df₁ n seed false).filter
        (fun r => decide (monthOf r = M)) =
      (monthly_sample randSeq pdSample df₂ n seed false).filter
        (fun r => decide (monthOf r = M)) := by
  have hmode₁ : monthly_sample randSeq pdSample df₁ n seed false =
      randomModeAux randSeq pdSample df₁ n seed (distinctMonths df₁) 0 := rfl
  have hmode₂ : monthly_sample randSeq pdSample df₂ n seed false =
      randomModeAux randSeq pdSample df₂ n seed (distinctMonths df₂) 0 := rfl
  rw [hmode₁, hmode₂,
    filter_randomModeAux randSeq pdSample df₁ n seed M hS
      (distinctMonths df₁) 0 (distinctMonths_nodup df₁),
    filter_randomModeAux randSeq pdSample df₂ n seed M hS
      (distinctMonths df₂) 0 (distinctMonths_nodup df₂)]
  have hmem : (M ∈ distinctMonths df₁) ↔ (M ∈ distinctMonths df₂) := by
    rw [mem_distinctMonths_iff_filter, mem_distinctMonths_iff_filter, hgroup]
  by_cases hm₁ : M ∈ distinctMonths df₁
  · rw [if_pos hm₁, if_pos (hmem.mp hm₁), hgroup, hpos]
  · rw [if_neg hm₁, if_neg (fun h => hm₁ (hmem.mpr h))]

/-- A concrete stand-in for the sub-seed draw sequence of
`random.Random(seed)`: deterministic in the seed and the draw index. -/
def exRand (seed k : Nat) : Nat :=
  seed + k

/-- A concrete stand-in sampler for `DataFrame.sample`: rotate the
group by the random state and keep the first `k` rows — a
deterministic sample without replacement drawn from the group. -/
def exSample (state k : Nat) (g : List Review) : List Review :=
  (g.drop (state % g.length) ++ g.take (state % g.length)).take k

lemma exSample_mem : ∀ (state k : Nat) (g : List Review),
    ∀ x ∈ exSample state k g, x ∈ g := by
  intro state k g x hx
  simp only [exSample] at hx
  have hx' := List.mem_of_mem_take hx
  rcases List.mem_append.mp hx' with h | h
  · exact List.mem_of_mem_drop h
  · exact List.mem_of_mem_take h

theorem monthly_sample_month_stable_witness :
    (monthly_sample exRand exSample
        [sampleReview 2678400 true 0, sampleReview 2678401 true 1]
        1 0 false).filter (fun r => decide (monthOf r = 23641)) =
      (monthly_sample exRand exSample
        [sampleReview 2678400 true 0, sampleReview 2678401 true 1,
         sampleReview 5097600 true 2]
        1 0 false).filter (fun r => decide (monthOf r = 23641)) :=
  monthly_sample_month_stable exRand exSample
    [sampleReview 2678400 true 0, sampleReview 2678401 true 1]
    [sampleReview 2678400 true 0, sampleReview 2678401 true 1,
     sampleReview 5097600 true 2]
    1 0 23641 exSample_mem (by decide) (by decide)

/-- C5 counterexample: the sub-seeds are drawn sequentially along the
sorted month positions, so removing the January 1970 record shifts
February 1970 from draw index 1 to draw index 0 and its sampled
subset changes — with both runs using the same top-level seed and the
identical February group. -/
theorem monthly_sample_subseed_cex :
    sampleReview 2678401 true 1 ∈
      (monthly_sample exRand exSample
        [sampleReview 0 true 0, sampleReview 2678400 true 0,
         sampleReview 2678401 true 1] 1 0 false).filter
        (fun r => decide (monthOf r = 23641)) ∧
    sampleReview 2678401 true 1 ∉
      (monthly_sample exRand exSample
        [sampleReview 2678400 true 0, sampleReview 2678401 true 1]
        1 0 false).filter (fun r => decide (monthOf r = 23641)) := by
  decide

lemma round3_bounds {q : ℚ} (h0 : 0 ≤ q) (h1 : q ≤ 1) :
    0 ≤ round3 q ∧ round3 q ≤ 1 := by
  have hr : (0 : Int) ≤ round (1000 * q) := by
    rw [round_eq]
    have hq : (0 : ℚ) ≤ 1000 * q + 1 / 2 := by linarith
    exact Int.le_floor.mpr (by exact_mod_cast hq)
  have hr' : round (1000 * q) ≤ 1000 := by
    rw [round_eq]
    have hle : 1000 * q + 1 / 2 ≤ (1000 : ℚ) + 1 / 2 := by linarith
    calc ⌊1000 * q + 1 / 2⌋ ≤ ⌊(1000 : ℚ) + 1 / 2⌋ := Int.floor_le_floor hle
      _ = 1000 := by
        rw [show ((1000 : ℚ) + 1 / 2) = ((1000 : Int) : ℚ) + 1 / 2 by norm_num,
          Int.floor_int_add]
        norm_num
  constructor
  · unfold round3
    exact div_nonneg (by exact_mod_cast hr) (by norm_num)
  · unfold round3
    rw [div_le_one (by norm_num : (0 : ℚ) < 1000)]
    exact_mod_cast hr'

/-- C7: every row of `monthly_summary` satisfies
`positive + negative = total_reviews` exactly, has `pos_share` inside
`[0, 1]`, and its `pos_share` is `positive / total_reviews` rounded to
three decimal places (in the exact rational model of the float
arithmetic). -/
theorem monthly_summary_row_invariants (df : List Review) (row : SummaryRow)
    (hrow : row ∈ monthly_summary df) :
    row.positive + row.negative = row.total_reviews ∧
    0 ≤ row.pos_share ∧ row.pos_share ≤ 1 ∧
    row.pos_share =
      round3 ((row.positive : ℚ) / (row.total_reviews : ℚ)) := by
  rcases List.mem_map.mp hrow with ⟨M, hM, hrow'⟩
  subst hrow'
  have e1 : (summaryRow df M).total_reviews =
      (df.filter (fun r => decide (monthOf r = M))).length := rfl
  have e2 : (summaryRow df M).positive =
      (df.filter (fun r => decide (monthOf r = M))).countP
        (fun r => r.voted_up) := rfl
  have e3 : (summaryRow df M).negative =
      (df.filter (fun r => decide (monthOf r = M))).length -
        (df.filter (fun r => decide (monthOf r = M))).countP
          (fun r => r.voted_up) := rfl
  have e4 : (summaryRow df M).pos_share =
      round3 (((df.filter (fun r => decide (monthOf r = M))).countP
          (fun r => r.voted_up) : ℚ) /
        ((df.filter (fun r => decide (monthOf r = M))).length : ℚ)) := rfl
  rw [e1, e2, e3, e4]
  have hle : (df.filter (fun r => decide (monthOf r = M))).countP
      (fun r => r.voted_up) ≤
      (df.filter (fun r => decide (monthOf r = M))).length :=
    List.countP_le_length _
  have hq0 : 0 ≤ ((df.filter (fun r => decide (monthOf r = M))).countP
      (fun r => r.voted_up) : ℚ) /
      ((df.filter (fun r => decide (monthOf r = M))).length : ℚ) := by
    positivity
  have hq1 : ((df.filter (fun r => decide (monthOf r = M))).countP
      (fun r => r.voted_up) : ℚ) /
      ((df.filter (fun r => decide (monthOf r = M))).length : ℚ) ≤ 1 := by
    rcases Nat.eq_zero_or_pos
      (df.filter (fun r => decide (monthOf r = M))).length with h | h
    · have hz : (df.filter (fun r => decide (monthOf r = M))).countP
          (fun r => r.voted_up) = 0 := by omega
      simp [hz]
    · rw [div_le_one (by exact_mod_cast h)]
      exact_mod_cast hle
  exact ⟨by omega, (round3_bounds hq0 hq1).1, (round3_bounds hq0 hq1).2, rfl⟩

theorem monthly_summary_row_invariants_witness :
    (summaryRow [sampleReview 0 true 5] 23640).positive +
        (summaryRow [sampleReview 0 true 5] 23640).negative =
      (summaryRow [sampleReview 0 true 5] 23640).total_reviews ∧
    0 ≤ (summaryRow [sampleReview 0 true 5] 23640).pos_share ∧
    (summaryRow [sampleReview 0 true 5] 23640).pos_share ≤ 1 ∧
    (summaryRow [sampleReview 0 true 5] 23640).pos_share =
      round3 (((summaryRow [sampleReview 0 true 5] 23640).positive : ℚ) /
        ((summaryRow [sampleReview 0 true 5] 23640).total_reviews : ℚ)) :=
  monthly_summary_row_invariants [sampleReview 0 true 5]
    (summaryRow [sampleReview 0 true 5] 23640)
    (by
      have h : distinctMonths [sampleReview 0 true 5] = [23640] := by decide
      simp [monthly_summary, h])

end SteamReviews
